import Mathlib

/-!
Verification of the spacing-type library (`src/size.rs`): a scalar `Size`
storing an `f32` count of typographic points, a planar vector `Size2D`, and a
four-sided `SizeBox`.  The Rust code computes exclusively with IEEE-754
binary32 values, so we first build an executable model of binary32:
a datum is NaN, a signed infinity, or a signed finite value `m * 2^e`
(`m < 2^24`, `e ≥ -149` for actual float data), and every arithmetic
operation rounds its exact rational result to nearest, ties to even.
All definitions are kernel-executable so concrete claims evaluate by `decide`.
-/

set_option autoImplicit false

namespace SizeSpec

/-- Transparent addition on `ℚ` (agrees with `+`, see `qAdd_eq`). -/
def qAdd (a b : ℚ) : ℚ := mkRat (a.num * b.den + b.num * a.den) (a.den * b.den)

/-- Transparent multiplication on `ℚ` (agrees with `*`, see `qMul_eq`). -/
def qMul (a b : ℚ) : ℚ := mkRat (a.num * b.num) (a.den * b.den)

/-- Transparent division on `ℚ` (agrees with `/`, see `qDivQ_eq`). -/
def qDivQ (a b : ℚ) : ℚ :=
  if b.num < 0 then mkRat (-(a.num * b.den)) (a.den * b.num.natAbs)
  else mkRat (a.num * b.den) (a.den * b.num.natAbs)

/-- Transparent absolute value on `ℚ`. -/
def qAbs (q : ℚ) : ℚ := if q < 0 then -q else q

/-- The rational one half, in transparent form. -/
def half : ℚ := mkRat 1 2

/-- Power of two as a rational, for an integer (possibly negative) exponent.
Defined through `Nat.pow` so the kernel can evaluate it directly. -/
def q2 (e : ℤ) : ℚ :=
  if 0 ≤ e then ((2 ^ e.toNat : ℕ) : ℚ) else mkRat 1 (2 ^ (-e).toNat)

/-- Floor of a rational, computed from the numerator and denominator with
Euclidean division (kernel-executable). -/
def floorQ (q : ℚ) : ℤ := q.num / (q.den : ℤ)

/-- Fueled binary logarithm on naturals (floor of log base 2), structurally
recursive so the kernel can evaluate it. -/
def nlog2 : ℕ → ℕ → ℕ
  | 0, _ => 0
  | f + 1, n => if n ≤ 1 then 0 else nlog2 f (n / 2) + 1

/-- Floor of the binary logarithm of a positive rational, via `nlog2` on the
numerator and denominator and one final comparison. -/
def floorLog2Q (q : ℚ) : ℤ :=
  let n : ℕ := q.num.toNat
  let d : ℕ := q.den
  let e : ℤ := (nlog2 n n : ℤ) - (nlog2 d d : ℤ)
  if q2 e ≤ q then e else e - 1

/-- Round a rational to the nearest integer, ties to even. -/
def rne (r : ℚ) : ℤ :=
  let fl := floorQ r
  let frac := qAdd r (-(fl : ℚ))
  if frac < half then fl
  else if half < frac then fl + 1
  else if fl % 2 = 0 then fl else fl + 1

/-- Model of an IEEE-754 binary32 datum.  A finite value is
`(-1)^sign * mant * 2^exp`; actual float data satisfies `isValid`
(`mant < 2^24`, `exp ≥ -149`, magnitude below `2^128`).  A single `nan`
stands for every NaN bit pattern, since the Rust code never distinguishes
NaN payloads or the NaN sign. -/
inductive F32 where
  | nan : F32
  | inf (sign : Bool) : F32
  | finite (sign : Bool) (mant : ℕ) (exp : ℤ) : F32
deriving DecidableEq

/-- Signed rational value of a finite datum. -/
def sval (sign : Bool) (mant : ℕ) (exp : ℤ) : ℚ :=
  if sign then -qMul (mant : ℚ) (q2 exp) else qMul (mant : ℚ) (q2 exp)

/-- Rational value of a datum, when it is finite. -/
def F32.toRatOpt : F32 → Option ℚ
  | .finite s m e => some (sval s m e)
  | _ => none

/-- Valid float data: mantissa below `2^24`, exponent at least `-149`
(the least binary32 subnormal exponent), magnitude below `2^128`. -/
def F32.isValid : F32 → Bool
  | .nan => true
  | .inf _ => true
  | .finite _ m e => decide (m < 2 ^ 24) && decide ((-149 : ℤ) ≤ e) && decide (qMul (m : ℚ) (q2 e) < q2 128)

/-- The positive zero datum (Rust literal `0.0`). -/
def f32zero : F32 := F32.finite false 0 (-149)

/-- Round a positive rational magnitude at a fixed scaling exponent: round
the scaled mantissa to nearest (ties to even), renormalize a carry, and
overflow to `none` (infinity) at `2^128`. -/
def roundMagAt (a : ℚ) (e : ℤ) : Option (ℕ × ℤ) :=
  let m0 : ℕ := (rne (qMul a (q2 (-e)))).toNat
  let p : ℕ × ℤ := if m0 = 2 ^ 24 then (2 ^ 23, e + 1) else (m0, e)
  if q2 128 ≤ qMul (p.1 : ℚ) (q2 p.2) then none else some p

/-- Round a positive rational magnitude to binary32: the scaling exponent
comes from the floor base-2 logarithm, clamped at the subnormal exponent
`-149`. -/
def roundMag (a : ℚ) : Option (ℕ × ℤ) :=
  roundMagAt a (max (floorLog2Q a - 23) (-149))

/-- Round any rational to binary32 (round to nearest, ties to even): the sign
is taken from the input, zero rounds to `+0`. -/
def roundF32 (q : ℚ) : F32 :=
  if q = 0 then f32zero
  else
    match roundMag (qAbs q) with
    | none => F32.inf (decide (q < 0))
    | some (m, e) => F32.finite (decide (q < 0)) m e

/-- The binary32 value denoted by a Rust floating literal with decimal
value `q` (literals round to nearest). -/
def lit (q : ℚ) : F32 := roundF32 q

/-- IEEE negation: flip the sign bit.  On the single modelled NaN the result
is again NaN. -/
def negF32 : F32 → F32
  | .nan => .nan
  | .inf s => .inf (!s)
  | .finite s m e => .finite (!s) m e

/-- IEEE addition: NaN propagates, opposite infinities give NaN, and a finite
sum is the correctly rounded exact sum; an exactly zero sum is `+0` except
`-0 + -0 = -0` (round-to-nearest sign rule). -/
def addF32 : F32 → F32 → F32
  | .nan, _ => .nan
  | _, .nan => .nan
  | .inf s, .inf t => if s = t then .inf s else .nan
  | .inf s, .finite _ _ _ => .inf s
  | .finite _ _ _, .inf t => .inf t
  | .finite s1 m1 e1, .finite s2 m2 e2 =>
    let q := qAdd (sval s1 m1 e1) (sval s2 m2 e2)
    if q = 0 then .finite (s1 && s2) 0 (-149) else roundF32 q

/-- IEEE subtraction, which coincides with adding the negated operand. -/
def subF32 (a b : F32) : F32 := addF32 a (negF32 b)

/-- IEEE multiplication: NaN propagates, `0 * inf` is NaN, infinities and
zeros carry the XOR of the signs, and a nonzero finite product is the
correctly rounded exact product. -/
def mulF32 : F32 → F32 → F32
  | .nan, _ => .nan
  | _, .nan => .nan
  | .inf s, .inf t => .inf (Bool.xor s t)
  | .inf s, .finite t m _ => if m = 0 then .nan else .inf (Bool.xor s t)
  | .finite t m _, .inf s => if m = 0 then .nan else .inf (Bool.xor t s)
  | .finite s1 m1 e1, .finite s2 m2 e2 =>
    if m1 = 0 || m2 = 0 then .finite (Bool.xor s1 s2) 0 (-149)
    else roundF32 (qMul (sval s1 m1 e1) (sval s2 m2 e2))

/-- IEEE division: NaN propagates, `0/0` and `inf/inf` are NaN, a nonzero
finite value divided by zero is a signed infinity, a finite value divided by
infinity is a signed zero, and a nonzero finite quotient is the correctly
rounded exact quotient. -/
def divF32 : F32 → F32 → F32
  | .nan, _ => .nan
  | _, .nan => .nan
  | .inf _, .inf _ => .nan
  | .inf s, .finite t _ _ => .inf (Bool.xor s t)
  | .finite s _ _, .inf t => .finite (Bool.xor s t) 0 (-149)
  | .finite s1 m1 e1, .finite s2 m2 e2 =>
    if m2 = 0 then (if m1 = 0 then .nan else .inf (Bool.xor s1 s2))
    else if m1 = 0 then .finite (Bool.xor s1 s2) 0 (-149)
    else roundF32 (qDivQ (sval s1 m1 e1) (sval s2 m2 e2))

/-- IEEE equality (`==` on `f32`): NaN equals nothing, infinities compare by
sign, finite data compare by value (so `-0.0 == 0.0`). -/
def ieeeEq : F32 → F32 → Bool
  | .nan, _ => false
  | _, .nan => false
  | .inf s, .inf t => s == t
  | .inf _, .finite _ _ _ => false
  | .finite _ _ _, .inf _ => false
  | .finite s1 m1 e1, .finite s2 m2 e2 => decide (sval s1 m1 e1 = sval s2 m2 e2)

/-- Comparison of two rationals as an `Ordering`. -/
def cmpQ (a b : ℚ) : Ordering :=
  if a < b then .lt else if a = b then .eq else .gt

/-- Model of `f32::partial_cmp`: `none` exactly when an operand is NaN. -/
def pcmpF32 : F32 → F32 → Option Ordering
  | .nan, _ => none
  | _, .nan => none
  | .inf s, .inf t => if s = t then some .eq else if s then some .lt else some .gt
  | .inf s, .finite _ _ _ => if s then some .lt else some .gt
  | .finite _ _ _, .inf t => if t then some .gt else some .lt
  | .finite s1 m1 e1, .finite s2 m2 e2 => some (cmpQ (sval s1 m1 e1) (sval s2 m2 e2))

/-- Conversion of an `i32` scalar to `f32` (the Rust cast `k as f32`):
round to nearest, ties to even.  Every `i32` is far below the binary32
overflow threshold, so the result is always finite. -/
def i32ToF32 (k : ℤ) : F32 := roundF32 ((k : ℚ))

/-- Strip trailing `'0'` characters. -/
def trimZeros (l : List Char) : List Char :=
  (l.reverse.dropWhile (fun c => c = '0')).reverse

/-- Decimal expansion of the non-integral dyadic `m / 2^k` (`k > 0`,
`2^k` not dividing `m`): print the digits of `m * 5^k` with the decimal
point `k` places from the right, trailing zeros trimmed. -/
def fmtFrac (m k : ℕ) : String :=
  let digits := toString (m * 5 ^ k)
  let padded :=
    if digits.length ≤ k then String.mk (List.replicate (k + 1 - digits.length) '0') ++ digits
    else digits
  let cut := padded.length - k
  String.mk (padded.toList.take cut) ++ "." ++ String.mk (trimZeros (padded.toList.drop cut))

/-- Magnitude of the finite value `m * 2^e` in decimal notation: integers
print without a decimal point, fractional dyadics with their exact decimal
expansion. -/
def fmtMag (m : ℕ) (e : ℤ) : String :=
  if 0 ≤ e then toString (m * 2 ^ e.toNat)
  else
    let k := (-e).toNat
    if m % 2 ^ k = 0 then toString (m / 2 ^ k) else fmtFrac m k

/-- Modelled from the spec: the textual rendering of an `f32` magnitude.
The repository's `Display` impls delegate the number itself to the Rust
standard library's `Display for f32` (code outside this repository), which
prints the shortest decimal that round-trips.  The spec fixes the observable
format only through integer-valued examples ("12pt", "[1pt, 2pt]",
"0pt"), where shortest-round-trip and exact decimal expansion agree; we model
sign, NaN, infinities and the integer/fraction split, printing the exact
decimal expansion for fractional values. -/
def fmtF32 : F32 → String
  | .nan => "NaN"
  | .inf s => if s then "-inf" else "inf"
  | .finite s m e => (if s then "-" else "") ++ fmtMag m e

/-- `Size`: a spacing value holding an amount of typographic points as an
`f32` (`src/size.rs`, struct `Size`). -/
structure Size where
  points : F32
deriving DecidableEq

/-- `Size::zero()`: the size with magnitude `0.0`. -/
def Size.zero : Size := ⟨f32zero⟩

/-- `Size::from_points(points)`. -/
def Size.from_points (points : F32) : Size := ⟨points⟩

/-- `Size::from_inches(inches)`: `72.0 * inches`. -/
def Size.from_inches (inches : F32) : Size := ⟨mulF32 (lit 72) inches⟩

/-- `Size::from_mm(mm)`: `2.83465 * mm`. -/
def Size.from_mm (mm : F32) : Size := ⟨mulF32 (lit (mkRat 283465 100000)) mm⟩

/-- `Size::from_cm(cm)`: `28.3465 * cm`. -/
def Size.from_cm (cm : F32) : Size := ⟨mulF32 (lit (mkRat 283465 10000)) cm⟩

/-- `Size::to_points()`. -/
def Size.to_points (s : Size) : F32 := s.points

/-- `Size::to_inches()`: `self.points * 0.0138889`. -/
def Size.to_inches (s : Size) : F32 := mulF32 s.points (lit (mkRat 138889 10000000))

/-- `Size::to_mm()`: `self.points * 0.352778`. -/
def Size.to_mm (s : Size) : F32 := mulF32 s.points (lit (mkRat 352778 1000000))

/-- `Size::to_cm()`: `self.points * 0.0352778`. -/
def Size.to_cm (s : Size) : F32 := mulF32 s.points (lit (mkRat 352778 10000000))

/-- `impl Add for Size`: `Size { points: self.points + other.points }`. -/
def Size.add (a b : Size) : Size := ⟨addF32 a.points b.points⟩

/-- `impl Sub for Size`. -/
def Size.sub (a b : Size) : Size := ⟨subF32 a.points b.points⟩

/-- `impl Neg for Size`: `Size { points: -self.points }`. -/
def Size.neg (a : Size) : Size := ⟨negF32 a.points⟩

/-- `impl Mul<f32> for Size` (`impl_num_back!`): `self.points * other`. -/
def Size.mulf (a : Size) (k : F32) : Size := ⟨mulF32 a.points k⟩

/-- `impl Mul<Size> for f32` (`impl_num_both!`): `self * other.points`. -/
def Size.mulfRev (k : F32) (a : Size) : Size := ⟨mulF32 k a.points⟩

/-- `impl Mul<i32> for Size`: `self.points * (other as f32)`. -/
def Size.muli (a : Size) (k : ℤ) : Size := ⟨mulF32 a.points (i32ToF32 k)⟩

/-- `impl Mul<Size> for i32`: `(self as f32) * other.points`. -/
def Size.muliRev (k : ℤ) (a : Size) : Size := ⟨mulF32 (i32ToF32 k) a.points⟩

/-- `impl Div<f32> for Size`: `self.points / other`. -/
def Size.divf (a : Size) (k : F32) : Size := ⟨divF32 a.points k⟩

/-- `impl Div<i32> for Size`: `self.points / (other as f32)`. -/
def Size.divi (a : Size) (k : ℤ) : Size := ⟨divF32 a.points (i32ToF32 k)⟩

/-- `impl Sum for Size`: `iter.fold(Size::zero(), Add::add)`. -/
def Size.sum (l : List Size) : Size := l.foldl Size.add Size.zero

/-- `PartialEq` on `Size` (derived): `==` on the stored `f32`. -/
def Size.beq (a b : Size) : Bool := ieeeEq a.points b.points

/-- `impl PartialOrd for Size`: delegate to `f32::partial_cmp`. -/
def Size.pcmp (a b : Size) : Option Ordering := pcmpF32 a.points b.points

/-- The `PartialOrd::lt` default: `partial_cmp` is `Some(Less)`. -/
def ordIsLt : Option Ordering → Bool
  | some Ordering.lt => true
  | _ => false

/-- The `PartialOrd::le` default: `Some(Less | Equal)`. -/
def ordIsLe : Option Ordering → Bool
  | some Ordering.lt => true
  | some Ordering.eq => true
  | _ => false

/-- The `PartialOrd::gt` default: `Some(Greater)`. -/
def ordIsGt : Option Ordering → Bool
  | some Ordering.gt => true
  | _ => false

/-- The `PartialOrd::ge` default: `Some(Greater | Equal)`. -/
def ordIsGe : Option Ordering → Bool
  | some Ordering.gt => true
  | some Ordering.eq => true
  | _ => false

/-- Field chaining of a derived `partial_cmp`: fall through to the next field
only on `Some(Equal)`. -/
def ordChain (c rest : Option Ordering) : Option Ordering :=
  match c with
  | some Ordering.eq => rest
  | c' => c'

/-- Rust `<` on `Size` (the `PartialOrd::lt` default). -/
def Size.lt (a b : Size) : Bool := ordIsLt (Size.pcmp a b)

/-- Rust `<=` on `Size`. -/
def Size.le (a b : Size) : Bool := ordIsLe (Size.pcmp a b)

/-- Rust `>` on `Size`. -/
def Size.gt (a b : Size) : Bool := ordIsGt (Size.pcmp a b)

/-- Rust `>=` on `Size`. -/
def Size.ge (a b : Size) : Bool := ordIsGe (Size.pcmp a b)

/-- `impl Display for Size`: `write!(f, "{}pt", self.points)`. -/
def Size.display (s : Size) : String := fmtF32 s.points ++ "pt"

/-- `impl Debug for Size`: `Display::fmt(self, f)`. -/
def Size.debugStr (s : Size) : String := Size.display s

/-- `Size2D`: a pair of sizes (`src/size.rs`, struct `Size2D`). -/
structure Size2D where
  x : Size
  y : Size
deriving DecidableEq

/-- `Size2D::new(x, y)`. -/
def Size2D.new (x y : Size) : Size2D := ⟨x, y⟩

/-- `Size2D::zero()`. -/
def Size2D.zero : Size2D := ⟨Size.zero, Size.zero⟩

/-- Derived `PartialEq` on `Size2D`: both fields `==`. -/
def Size2D.beq (a b : Size2D) : Bool := Size.beq a.x b.x && Size.beq a.y b.y

/-- Derived `PartialOrd::partial_cmp` on `Size2D`: compare `x`, and only on
`Some(Equal)` fall through to `y` (field order of the struct). -/
def Size2D.pcmp (a b : Size2D) : Option Ordering :=
  ordChain (Size.pcmp a.x b.x) (Size.pcmp a.y b.y)

/-- Rust `<` on `Size2D`. -/
def Size2D.lt (a b : Size2D) : Bool := ordIsLt (Size2D.pcmp a b)

/-- `impl Neg for Size2D`: negate both components. -/
def Size2D.neg (a : Size2D) : Size2D := ⟨a.x.neg, a.y.neg⟩

/-- `impl Add for Size2D` (`impl_reflexive2d!`): component-wise. -/
def Size2D.add (a b : Size2D) : Size2D := ⟨a.x.add b.x, a.y.add b.y⟩

/-- `impl Sub for Size2D`: component-wise. -/
def Size2D.sub (a b : Size2D) : Size2D := ⟨a.x.sub b.x, a.y.sub b.y⟩

/-- `impl Mul<f32> for Size2D` (`impl_num_back2d!`): scale both components. -/
def Size2D.mulf (a : Size2D) (k : F32) : Size2D := ⟨a.x.mulf k, a.y.mulf k⟩

/-- `impl Mul<Size2D> for f32` (`impl_num_both2d!`). -/
def Size2D.mulfRev (k : F32) (a : Size2D) : Size2D :=
  ⟨Size.mulfRev k a.x, Size.mulfRev k a.y⟩

/-- `impl Mul<i32> for Size2D`: each component times `other as f32`. -/
def Size2D.muli (a : Size2D) (k : ℤ) : Size2D :=
  ⟨a.x.mulf (i32ToF32 k), a.y.mulf (i32ToF32 k)⟩

/-- `impl Mul<Size2D> for i32`: `(self as f32) *` each component. -/
def Size2D.muliRev (k : ℤ) (a : Size2D) : Size2D :=
  ⟨Size.mulfRev (i32ToF32 k) a.x, Size.mulfRev (i32ToF32 k) a.y⟩

/-- `impl Div<f32> for Size2D`: divide both components. -/
def Size2D.divf (a : Size2D) (k : F32) : Size2D := ⟨a.x.divf k, a.y.divf k⟩

/-- `impl Div<i32> for Size2D`: each component divided by `other as f32`. -/
def Size2D.divi (a : Size2D) (k : ℤ) : Size2D :=
  ⟨a.x.divf (i32ToF32 k), a.y.divf (i32ToF32 k)⟩

/-- `impl Display for Size2D`: `write!(f, "[{}, {}]", self.x, self.y)`. -/
def Size2D.display (a : Size2D) : String :=
  "[" ++ a.x.display ++ ", " ++ a.y.display ++ "]"

/-- `impl Debug for Size2D`: `Display::fmt(self, f)`. -/
def Size2D.debugStr (a : Size2D) : String := Size2D.display a

/-- `SizeBox`: four sizes, fields in declaration order left, top, right,
bottom (`src/size.rs`, struct `SizeBox`). -/
structure SizeBox where
  left : Size
  top : Size
  right : Size
  bottom : Size
deriving DecidableEq

/-- `SizeBox::new(left, top, right, bottom)`. -/
def SizeBox.new (left top right bottom : Size) : SizeBox :=
  ⟨left, top, right, bottom⟩

/-- `SizeBox::zero()`. -/
def SizeBox.zero : SizeBox := ⟨Size.zero, Size.zero, Size.zero, Size.zero⟩

/-- Derived `PartialEq` on `SizeBox`: all four fields `==`. -/
def SizeBox.beq (a b : SizeBox) : Bool :=
  Size.beq a.left b.left && Size.beq a.top b.top &&
  Size.beq a.right b.right && Size.beq a.bottom b.bottom

/-- Derived `PartialOrd::partial_cmp` on `SizeBox`: fields compared in
declaration order, falling through only on `Some(Equal)`. -/
def SizeBox.pcmp (a b : SizeBox) : Option Ordering :=
  ordChain (Size.pcmp a.left b.left)
    (ordChain (Size.pcmp a.top b.top)
      (ordChain (Size.pcmp a.right b.right) (Size.pcmp a.bottom b.bottom)))

/-- Rust `<` on `SizeBox`. -/
def SizeBox.lt (a b : SizeBox) : Bool := ordIsLt (SizeBox.pcmp a b)

/-- `impl Display for SizeBox`. -/
def SizeBox.display (a : SizeBox) : String :=
  "[left: " ++ a.left.display ++ ", top: " ++ a.top.display ++
  ", right: " ++ a.right.display ++ ", bottom: " ++ a.bottom.display ++ "]"

/-- `impl Debug for SizeBox`: `Display::fmt(self, f)`. -/
def SizeBox.debugStr (a : SizeBox) : String := SizeBox.display a

/-- Whether a datum is (the) NaN. -/
def F32.isNan : F32 → Bool
  | .nan => true
  | _ => false

/-- Observational equivalence of two data: IEEE-equal, or both NaN.  This is
what survives a computation when only `==`-based observations are made. -/
def veq (a b : F32) : Bool := ieeeEq a b || (a.isNan && b.isNan)

/-! With the data model and operations in place, the rest of the file
establishes their properties: agreement of the transparent rational helpers
with the field structure of `ℚ`, exactness of rounding on representable
values, algebraic facts about the float operations, and the claim theorems
about the `Size` types. -/

theorem qAdd_eq (a b : ℚ) : qAdd a b = a + b := by
  unfold qAdd
  rw [Rat.mkRat_eq_div]
  have ha : (a.den : ℚ) ≠ 0 := by
    have := a.den_pos
    positivity
  have hb : (b.den : ℚ) ≠ 0 := by
    have := b.den_pos
    positivity
  conv_rhs => rw [← Rat.num_div_den a, ← Rat.num_div_den b]
  push_cast
  field_simp

theorem qMul_eq (a b : ℚ) : qMul a b = a * b := by
  unfold qMul
  rw [Rat.mkRat_eq_div]
  have ha : (a.den : ℚ) ≠ 0 := by
    have := a.den_pos
    positivity
  have hb : (b.den : ℚ) ≠ 0 := by
    have := b.den_pos
    positivity
  conv_rhs => rw [← Rat.num_div_den a, ← Rat.num_div_den b]
  push_cast
  field_simp

theorem qDivQ_eq (a b : ℚ) : qDivQ a b = a / b := by
  unfold qDivQ
  have ha : (a.den : ℚ) ≠ 0 := by
    have := a.den_pos
    positivity
  rcases lt_trichotomy b.num 0 with hb | hb | hb
  · rw [if_pos hb, Rat.mkRat_eq_div]
    have habs : ((b.num.natAbs : ℚ)) = -(b.num : ℚ) := by
      rw [Int.cast_natAbs, abs_of_neg hb]
      push_cast
      ring
    have hbnum : (b.num : ℚ) ≠ 0 := by
      intro h
      exact absurd (by exact_mod_cast h) (ne_of_lt hb)
    have hbden : (b.den : ℚ) ≠ 0 := by
      have := b.den_pos
      positivity
    conv_rhs => rw [← Rat.num_div_den a, ← Rat.num_div_den b]
    push_cast
    rw [habs]
    field_simp
  · rw [if_neg (by omega), hb]
    simp [Rat.mkRat_eq_div, div_eq_mul_inv]
    have : b = 0 := by
      have := Rat.num_eq_zero.mp hb
      exact this
    rw [this]
    simp
  · rw [if_neg (by omega), Rat.mkRat_eq_div]
    have habs : ((b.num.natAbs : ℚ)) = (b.num : ℚ) := by
      rw [Int.cast_natAbs, abs_of_pos hb]
    have hbnum : (b.num : ℚ) ≠ 0 := by
      intro h
      exact absurd (by exact_mod_cast h) (ne_of_gt hb)
    have hbden : (b.den : ℚ) ≠ 0 := by
      have := b.den_pos
      positivity
    conv_rhs => rw [← Rat.num_div_den a, ← Rat.num_div_den b]
    push_cast
    rw [habs]
    field_simp

theorem qAbs_eq (q : ℚ) : qAbs q = |q| := by
  unfold qAbs
  rcases lt_trichotomy q 0 with h | h | h
  · rw [if_pos h, abs_of_neg h]
  · rw [h]
    simp
  · rw [if_neg (not_lt.mpr (le_of_lt h)), abs_of_pos h]

theorem half_eq : half = 1 / 2 := by
  unfold half
  rw [Rat.mkRat_eq_div]
  norm_num

theorem q2_eq_zpow (e : ℤ) : q2 e = (2 : ℚ) ^ e := by
  unfold q2
  split
  · next h =>
    push_cast
    rw [← zpow_natCast]
    congr 1
    omega
  · next h =>
    rw [Rat.mkRat_eq_div]
    push_cast
    rw [one_div, ← zpow_natCast, ← zpow_neg]
    congr 1
    omega

theorem q2_pos (e : ℤ) : 0 < q2 e := by
  rw [q2_eq_zpow]; positivity

theorem q2_add (a b : ℤ) : q2 (a + b) = q2 a * q2 b := by
  rw [q2_eq_zpow, q2_eq_zpow, q2_eq_zpow, zpow_add₀ (by norm_num : (2:ℚ) ≠ 0)]

theorem floorQ_spec (q : ℚ) : (floorQ q : ℚ) ≤ q ∧ q < floorQ q + 1 := by
  have hden : (0 : ℤ) < (q.den : ℤ) := by exact_mod_cast q.den_pos
  have hdq : (0 : ℚ) < (q.den : ℚ) := by exact_mod_cast q.den_pos
  have hdecomp : (q.den : ℤ) * floorQ q + q.num % (q.den : ℤ) = q.num :=
    Int.ediv_add_emod q.num q.den
  have hr0 : (0 : ℤ) ≤ q.num % (q.den : ℤ) := Int.emod_nonneg q.num (by omega)
  have hr1 : q.num % (q.den : ℤ) < (q.den : ℤ) := Int.emod_lt_of_pos q.num hden
  have key : (q.num : ℚ) = (q.den : ℚ) * (floorQ q : ℚ) + ((q.num % (q.den : ℤ) : ℤ) : ℚ) := by
    exact_mod_cast (congrArg (fun z : ℤ => (z : ℚ)) hdecomp).symm
  have hrq0 : (0 : ℚ) ≤ ((q.num % (q.den : ℤ) : ℤ) : ℚ) := by exact_mod_cast hr0
  have hrq1 : ((q.num % (q.den : ℤ) : ℤ) : ℚ) < (q.den : ℚ) := by exact_mod_cast hr1
  set f := floorQ q with hf
  set r := ((q.num % (q.den : ℤ) : ℤ) : ℚ) with hrr
  constructor
  · rw [← Rat.num_div_den q, le_div_iff₀ hdq]
    nlinarith [key]
  · rw [← Rat.num_div_den q, div_lt_iff₀ hdq]
    nlinarith [key]

theorem nlog2_spec : ∀ (f n : ℕ), 0 < n → n ≤ 2 ^ f →
    2 ^ nlog2 f n ≤ n ∧ n < 2 ^ (nlog2 f n + 1) := by
  intro f
  induction f with
  | zero =>
    intro n h1 h2
    simp only [pow_zero] at h2
    have : n = 1 := by omega
    subst this
    simp [nlog2]
  | succ f ih =>
    intro n h1 h2
    by_cases hsmall : n ≤ 1
    · have : n = 1 := by omega
      subst this
      simp [nlog2]
    · have h2' : n / 2 ≤ 2 ^ f := by
        rw [pow_succ] at h2
        omega
      have h1' : 0 < n / 2 := by omega
      obtain ⟨ha, hb⟩ := ih (n / 2) h1' h2'
      have hrec : nlog2 (f + 1) n = nlog2 f (n / 2) + 1 := by
        simp [nlog2, hsmall]
      refine ⟨?_, ?_⟩
      · rw [hrec, pow_succ]
        have := Nat.div_mul_le_self n 2
        omega
      · rw [hrec, pow_succ]
        have : n < (n / 2) * 2 + 2 := by omega
        omega

theorem floorLog2Q_spec (q : ℚ) (hq : 0 < q) :
    q2 (floorLog2Q q) ≤ q ∧ q < q2 (floorLog2Q q + 1) := by
  have hnum : 0 < q.num := Rat.num_pos.mpr hq
  have hden : 0 < q.den := q.den_pos
  set n : ℕ := q.num.toNat with hn
  set d : ℕ := q.den with hd
  have hn0 : 0 < n := by omega
  have hqnd : q = (n : ℚ) / (d : ℚ) := by
    rw [← Rat.num_div_den q]
    congr 1
    rw [hn]
    exact_mod_cast (Int.toNat_of_nonneg (le_of_lt hnum)).symm
  have hdq : (0 : ℚ) < (d : ℚ) := by exact_mod_cast hden
  obtain ⟨ha1, ha2⟩ := nlog2_spec n n hn0 (le_of_lt (Nat.lt_two_pow n))
  obtain ⟨hb1, hb2⟩ := nlog2_spec d d hden (le_of_lt (Nat.lt_two_pow d))
  set a : ℕ := nlog2 n n with hA
  set b : ℕ := nlog2 d d with hB
  -- rational bounds: q2 (a - b - 1) < q < q2 (a - b + 1)
  have hq2n : ((2 ^ a : ℕ) : ℚ) = q2 (a : ℤ) := by
    rw [q2_eq_zpow]
    push_cast
    rw [← zpow_natCast]
  have upper : q < q2 ((a : ℤ) - b + 1) := by
    rw [hqnd, div_lt_iff₀ hdq]
    have h1 : ((n : ℚ)) < (2 : ℚ) ^ ((a : ℤ) + 1) := by
      have : (n : ℚ) < ((2 ^ (a + 1) : ℕ) : ℚ) := by exact_mod_cast ha2
      rwa [Nat.cast_pow, ← zpow_natCast, Nat.cast_ofNat, Nat.cast_add, Nat.cast_one] at this
    have h2 : (2 : ℚ) ^ ((b : ℤ)) ≤ (d : ℚ) := by
      have : ((2 ^ b : ℕ) : ℚ) ≤ (d : ℚ) := by exact_mod_cast hb1
      rwa [Nat.cast_pow, ← zpow_natCast, Nat.cast_ofNat] at this
    rw [q2_eq_zpow]
    calc (n : ℚ) < (2 : ℚ) ^ ((a : ℤ) + 1) := h1
      _ = (2 : ℚ) ^ ((a : ℤ) - b + 1) * (2 : ℚ) ^ ((b : ℤ)) := by
          rw [← zpow_add₀ (by norm_num : (2:ℚ) ≠ 0)]
          ring_nf
      _ ≤ (2 : ℚ) ^ ((a : ℤ) - b + 1) * (d : ℚ) := by
          have : (0:ℚ) < (2 : ℚ) ^ ((a : ℤ) - b + 1) := by positivity
          nlinarith
  have lower : q2 ((a : ℤ) - b - 1) < q := by
    rw [hqnd, lt_div_iff₀ hdq]
    have h1 : (2 : ℚ) ^ ((a : ℤ)) ≤ (n : ℚ) := by
      have : ((2 ^ a : ℕ) : ℚ) ≤ (n : ℚ) := by exact_mod_cast ha1
      rwa [Nat.cast_pow, ← zpow_natCast, Nat.cast_ofNat] at this
    have h2 : ((d : ℚ)) < (2 : ℚ) ^ ((b : ℤ) + 1) := by
      have : (d : ℚ) < ((2 ^ (b + 1) : ℕ) : ℚ) := by exact_mod_cast hb2
      rwa [Nat.cast_pow, ← zpow_natCast, Nat.cast_ofNat, Nat.cast_add, Nat.cast_one] at this
    rw [q2_eq_zpow]
    calc (2 : ℚ) ^ ((a : ℤ) - b - 1) * (d : ℚ)
        < (2 : ℚ) ^ ((a : ℤ) - b - 1) * (2 : ℚ) ^ ((b : ℤ) + 1) := by
          have : (0:ℚ) < (2 : ℚ) ^ ((a : ℤ) - b - 1) := by positivity
          nlinarith
      _ = (2 : ℚ) ^ ((a : ℤ)) := by
          rw [← zpow_add₀ (by norm_num : (2:ℚ) ≠ 0)]
          ring_nf
      _ ≤ (n : ℚ) := h1
  -- unfold the definition
  have hdef : floorLog2Q q = if q2 ((a : ℤ) - b) ≤ q then ((a : ℤ) - b) else ((a : ℤ) - b) - 1 := by
    simp only [floorLog2Q]
  rw [hdef]
  by_cases hcase : q2 ((a : ℤ) - b) ≤ q
  · rw [if_pos hcase]
    exact ⟨hcase, upper⟩
  · rw [if_neg hcase]
    constructor
    · have : ((a : ℤ) - b - 1) = ((a : ℤ) - b) - 1 := rfl
      exact le_of_lt lower
    · have : ((a : ℤ) - b) - 1 + 1 = (a : ℤ) - b := by ring
      rw [this]
      exact not_le.mp hcase

theorem floorQ_intCast (n : ℤ) : floorQ ((n : ℚ)) = n := by
  unfold floorQ
  rw [Rat.num_intCast, Rat.den_intCast]
  simp

theorem rne_intCast (n : ℤ) : rne ((n : ℚ)) = n := by
  simp only [rne, floorQ_intCast, qAdd_eq, half_eq]
  norm_num

theorem rne_natCast (n : ℕ) : rne ((n : ℚ)) = (n : ℤ) := by
  have : ((n : ℚ)) = (((n : ℤ) : ℚ)) := by push_cast; rfl
  rw [this, rne_intCast]

theorem sval_eq (sign : Bool) (mant : ℕ) (exp : ℤ) :
    sval sign mant exp = (if sign then (-1 : ℚ) else 1) * mant * (2 : ℚ) ^ exp := by
  unfold sval
  rw [qMul_eq, q2_eq_zpow]
  cases sign <;> simp [neg_mul]

/-! Exactness of rounding on representable values. -/

theorem q2_le_q2 {a b : ℤ} (h : a ≤ b) : q2 a ≤ q2 b := by
  rw [q2_eq_zpow, q2_eq_zpow]
  exact zpow_le_zpow_right₀ (by norm_num) h

theorem q2_lt_iff {a b : ℤ} : q2 a < q2 b ↔ a < b := by
  rw [q2_eq_zpow, q2_eq_zpow]
  exact zpow_lt_zpow_iff_right₀ (by norm_num)

theorem q2_natCast (k : ℕ) : q2 (k : ℤ) = ((2 ^ k : ℕ) : ℚ) := by
  rw [q2_eq_zpow]
  push_cast
  rw [← zpow_natCast]

theorem q2_of_nonneg {t : ℤ} (h : 0 ≤ t) : q2 t = (2 : ℚ) ^ t.toNat := by
  rw [q2_eq_zpow, ← zpow_natCast]
  congr 1
  omega

theorem q2_mul_q2_neg (t : ℤ) : q2 t * q2 (-t) = 1 := by
  rw [q2_eq_zpow, q2_eq_zpow, ← zpow_add₀ (by norm_num : (2:ℚ) ≠ 0)]
  norm_num

theorem sval_false (m : ℕ) (e : ℤ) : sval false m e = (m : ℚ) * q2 e := by
  rw [show sval false m e = qMul (m : ℚ) (q2 e) from rfl, qMul_eq]

theorem sval_true (m : ℕ) (e : ℤ) : sval true m e = -((m : ℚ) * q2 e) := by
  rw [show sval true m e = -qMul (m : ℚ) (q2 e) from rfl, qMul_eq]

theorem roundMagAt_exact (a : ℚ) (ex : ℤ) (n : ℕ)
    (hrne : rne (qMul a (q2 (-ex))) = (n : ℤ)) (hn24 : n < 2 ^ 24)
    (hval : (n : ℚ) * q2 ex = a) (hub : a < q2 128) :
    roundMagAt a ex = some (n, ex) := by
  have hcarry : (if n = 2 ^ 24 then ((2 : ℕ) ^ 23, ex + 1) else (n, ex)) = (n, ex) := by
    rw [if_neg (by omega)]
  simp only [roundMagAt, hrne, Int.toNat_natCast, hcarry]
  rw [qMul_eq, hval, if_neg (not_le.mpr hub)]

theorem roundMag_exact (m : ℕ) (e : ℤ) (hm : 0 < m) (hm24 : m < 2 ^ 24)
    (he : (-149 : ℤ) ≤ e) (hub : (m : ℚ) * q2 e < q2 128) :
    ∃ m' e', roundMag ((m : ℚ) * q2 e) = some (m', e') ∧
      (m' : ℚ) * q2 e' = (m : ℚ) * q2 e ∧ 0 < m' ∧ m' < 2 ^ 24 ∧ (-149 : ℤ) ≤ e' := by
  set a : ℚ := (m : ℚ) * q2 e with ha
  have hmq : (0 : ℚ) < (m : ℚ) := by exact_mod_cast hm
  have hapos : 0 < a := mul_pos hmq (q2_pos e)
  obtain ⟨hL1, hL2⟩ := floorLog2Q_spec a hapos
  set L : ℤ := floorLog2Q a with hL
  have h24 : q2 (24 : ℤ) = ((2 ^ 24 : ℕ) : ℚ) := by decide
  have hm24q : (m : ℚ) < q2 24 := by
    rw [h24]
    exact_mod_cast hm24
  have haup : a < q2 (e + 24) := by
    rw [ha, q2_add]
    calc (m : ℚ) * q2 e < q2 24 * q2 e := mul_lt_mul_of_pos_right hm24q (q2_pos e)
      _ = q2 e * q2 24 := mul_comm _ _
  have hLle : L ≤ e + 23 := by
    have h1 : q2 L < q2 (e + 24) := lt_of_le_of_lt hL1 haup
    have := q2_lt_iff.mp h1
    omega
  set ex : ℤ := max (L - 23) (-149) with hex
  have hexle : ex ≤ e := by omega
  have hexge : (-149 : ℤ) ≤ ex := le_max_right _ _
  set n : ℕ := m * 2 ^ (e - ex).toNat with hn
  have hnq : (n : ℚ) = (m : ℚ) * q2 (e - ex) := by
    rw [hn, q2_of_nonneg (by omega : (0:ℤ) ≤ e - ex)]
    push_cast
    ring
  have hval : (n : ℚ) * q2 ex = a := by
    rw [hnq, ha, mul_assoc, ← q2_add]
    congr 2
    omega
  have hscale : qMul a (q2 (-ex)) = (n : ℚ) := by
    rw [qMul_eq, ← hval, mul_assoc, q2_mul_q2_neg, mul_one]
  have hrne : rne (qMul a (q2 (-ex))) = (n : ℤ) := by
    rw [hscale]
    exact rne_natCast n
  have hn24 : n < 2 ^ 24 := by
    have h1 : a < q2 ex * q2 24 := by
      rw [← q2_add]
      exact lt_of_lt_of_le hL2 (q2_le_q2 (by omega))
    have h2 : (n : ℚ) * q2 ex < q2 ex * q2 24 := by
      rw [hval]
      exact h1
    have h3 : (n : ℚ) < q2 24 := by
      have hpos := q2_pos ex
      nlinarith
    rw [h24] at h3
    exact_mod_cast h3
  have hub' : a < q2 128 := by rw [ha]; exact hub
  have hn0 : 0 < n := by
    have : 0 < 2 ^ (e - ex).toNat := Nat.pos_pow_of_pos _ (by norm_num)
    rw [hn]
    positivity
  refine ⟨n, ex, ?_, by rw [hval, ha], hn0, hn24, hexge⟩
  show roundMag a = some (n, ex)
  unfold roundMag
  rw [← hL, ← hex]
  exact roundMagAt_exact a ex n hrne hn24 hval hub'

theorem qAbs_of_pos {q : ℚ} (h : 0 < q) : qAbs q = q := by
  unfold qAbs
  rw [if_neg (not_lt.mpr (le_of_lt h))]

theorem qAbs_neg (q : ℚ) : qAbs (-q) = qAbs q := by
  rw [qAbs_eq, qAbs_eq, abs_neg]

theorem roundF32_neg (q : ℚ) (hq : q ≠ 0) : roundF32 (-q) = negF32 (roundF32 q) := by
  unfold roundF32
  rw [if_neg (fun h => hq (neg_eq_zero.mp h)), if_neg hq, qAbs_neg]
  have hsign : decide (-q < 0) = !decide (q < 0) := by
    rcases lt_trichotomy q 0 with h | h | h
    · rw [decide_eq_false (not_lt.mpr (le_of_lt (neg_pos.mpr h))), decide_eq_true h]
      rfl
    · exact absurd h hq
    · rw [decide_eq_true (neg_neg_of_pos h), decide_eq_false (not_lt.mpr (le_of_lt h))]
      rfl
  rcases hmag : roundMag (qAbs q) with _ | p
  · simp only [hmag]
    rw [hsign]
    rfl
  · rcases p with ⟨m', e'⟩
    simp only [hmag]
    rw [hsign]
    rfl

theorem roundF32_sval (s : Bool) (m : ℕ) (e : ℤ) (hm : 0 < m) (hm24 : m < 2 ^ 24)
    (he : (-149 : ℤ) ≤ e) (hub : (m : ℚ) * q2 e < q2 128) :
    ∃ m' e', roundF32 (sval s m e) = F32.finite s m' e' ∧
      sval s m' e' = sval s m e ∧ 0 < m' ∧ m' < 2 ^ 24 ∧ (-149 : ℤ) ≤ e' := by
  obtain ⟨m', e', hmag, hval, hm'0, hm'24, he'⟩ := roundMag_exact m e hm hm24 he hub
  have hmq : (0 : ℚ) < (m : ℚ) := by exact_mod_cast hm
  have hpos : 0 < (m : ℚ) * q2 e := mul_pos hmq (q2_pos e)
  have hposround : roundF32 ((m : ℚ) * q2 e) = F32.finite false m' e' := by
    unfold roundF32
    rw [if_neg (ne_of_gt hpos), qAbs_of_pos hpos, hmag]
    rw [decide_eq_false (not_lt.mpr (le_of_lt hpos))]
  cases s with
  | false =>
    refine ⟨m', e', ?_, ?_, hm'0, hm'24, he'⟩
    · rw [sval_false]
      exact hposround
    · rw [sval_false, sval_false]
      exact hval
  | true =>
    refine ⟨m', e', ?_, ?_, hm'0, hm'24, he'⟩
    · rw [sval_true, roundF32_neg _ (ne_of_gt hpos), hposround]
      rfl
    · rw [sval_true, sval_true, hval]

theorem ieeeEq_refl (x : F32) (hx : x ≠ F32.nan) : ieeeEq x x = true := by
  cases x with
  | nan => exact absurd rfl hx
  | inf s => simp [ieeeEq]
  | finite s m e => simp [ieeeEq]

theorem veq_refl (x : F32) : veq x x = true := by
  cases x with
  | nan => rfl
  | inf s => simp [veq, ieeeEq]
  | finite s m e => simp [veq, ieeeEq]

theorem veq_to_ieeeEq {a b : F32} (h : veq a b = true) (hb : b.isNan = false) :
    ieeeEq a b = true := by
  rcases Bool.or_eq_true _ _ |>.mp h with h' | h'
  · exact h'
  · rw [Bool.and_eq_true] at h'
    rw [h'.2] at hb
    cases hb

theorem sval_zero (s : Bool) (e : ℤ) : sval s 0 e = 0 := by
  cases s
  · rw [sval_false]
    norm_num
  · rw [sval_true]
    norm_num

theorem sval_ne_zero (s : Bool) {m : ℕ} (e : ℤ) (hm : 0 < m) : sval s m e ≠ 0 := by
  have hmq : (0 : ℚ) < (m : ℚ) := by exact_mod_cast hm
  have hpos : 0 < (m : ℚ) * q2 e := mul_pos hmq (q2_pos e)
  cases s
  · rw [sval_false]
    exact ne_of_gt hpos
  · rw [sval_true]
    intro hz
    rw [neg_eq_zero] at hz
    exact (ne_of_gt hpos) hz

theorem veq_addF32_left (a a' c : F32) (h : veq a a' = true) :
    veq (addF32 a c) (addF32 a' c) = true := by
  cases a with
  | nan =>
    cases a' with
    | nan => exact veq_refl _
    | inf t => exact absurd h (by simp [veq, ieeeEq, F32.isNan])
    | finite t m e => exact absurd h (by simp [veq, ieeeEq, F32.isNan])
  | inf s =>
    cases a' with
    | nan => exact absurd h (by simp [veq, ieeeEq, F32.isNan])
    | inf t =>
      have hst : s = t := by
        simpa [veq, ieeeEq, F32.isNan] using h
      subst hst
      exact veq_refl _
    | finite t m e => exact absurd h (by simp [veq, ieeeEq, F32.isNan])
  | finite s1 m1 e1 =>
    cases a' with
    | nan => exact absurd h (by simp [veq, ieeeEq, F32.isNan])
    | inf t => exact absurd h (by simp [veq, ieeeEq, F32.isNan])
    | finite s2 m2 e2 =>
      have hsv : sval s1 m1 e1 = sval s2 m2 e2 := by
        simpa [veq, ieeeEq, F32.isNan] using h
      cases c with
      | nan => simp [addF32, veq, F32.isNan]
      | inf t => simp [addF32, veq, ieeeEq]
      | finite s3 m3 e3 =>
        simp only [addF32, hsv]
        by_cases hz : qAdd (sval s2 m2 e2) (sval s3 m3 e3) = 0
        · rw [if_pos hz, if_pos hz]
          simp [veq, ieeeEq, sval_zero]
        · rw [if_neg hz, if_neg hz]
          exact veq_refl _

theorem veq_zero_add (x : F32) (hv : x.isValid = true) :
    veq (addF32 f32zero x) x = true := by
  cases x with
  | nan => decide
  | inf s => cases s <;> decide
  | finite s m e =>
    simp only [F32.isValid, Bool.and_eq_true, decide_eq_true_eq] at hv
    obtain ⟨⟨hm24, he⟩, hub⟩ := hv
    rw [qMul_eq] at hub
    by_cases hm0 : m = 0
    · subst hm0
      have hq0 : qAdd (sval false 0 (-149)) (sval s 0 e) = 0 := by
        rw [qAdd_eq, sval_zero, sval_zero]
        norm_num
      simp only [f32zero, addF32, hq0, if_pos]
      simp [veq, ieeeEq, sval_zero]
    · have hm : 0 < m := Nat.pos_of_ne_zero hm0
      have hq : qAdd (sval false 0 (-149)) (sval s m e) = sval s m e := by
        rw [qAdd_eq, sval_zero, zero_add]
      obtain ⟨m', e', hr, hveq, _, _, _⟩ := roundF32_sval s m e hm hm24 he hub
      simp only [f32zero, addF32, hq]
      rw [if_neg (sval_ne_zero s e hm), hr]
      simp [veq, ieeeEq, hveq]

theorem qMul_comm (a b : ℚ) : qMul a b = qMul b a := by
  rw [qMul_eq, qMul_eq, mul_comm]

theorem mulF32_comm (a b : F32) : mulF32 a b = mulF32 b a := by
  cases a <;> cases b <;>
    simp [mulF32, Bool.xor_comm, Bool.or_comm, qMul_comm]

theorem negF32_negF32 (a : F32) : negF32 (negF32 a) = a := by
  cases a <;> simp [negF32]

theorem cmpQ_eq_iff {a b : ℚ} : cmpQ a b = Ordering.eq ↔ a = b := by
  unfold cmpQ
  rcases lt_trichotomy a b with h | h | h
  · rw [if_pos h]
    constructor
    · intro hc
      cases hc
    · intro he
      exact absurd he (ne_of_lt h)
  · rw [if_neg (not_lt.mpr (le_of_eq h.symm)), if_pos h]
    simp [h]
  · rw [if_neg (not_lt.mpr (le_of_lt h)), if_neg (by exact fun he => absurd he (ne_of_gt h))]
    constructor
    · intro hc
      cases hc
    · intro he
      exact absurd he (ne_of_gt h)

theorem pcmp_eq_iff_beq (a b : Size) :
    Size.pcmp a b = some Ordering.eq ↔ Size.beq a b = true := by
  unfold Size.pcmp Size.beq
  rcases a with ⟨x⟩
  rcases b with ⟨y⟩
  cases x with
  | nan => cases y <;> simp [pcmpF32, ieeeEq]
  | inf s =>
    cases y with
    | nan => simp [pcmpF32, ieeeEq]
    | inf t => cases s <;> cases t <;> decide
    | finite t m e => cases s <;> simp [pcmpF32, ieeeEq]
  | finite s m e =>
    cases y with
    | nan => simp [pcmpF32, ieeeEq]
    | inf t => cases t <;> simp [pcmpF32, ieeeEq]
    | finite t m' e' =>
      simp [pcmpF32, ieeeEq, cmpQ_eq_iff]

theorem ordIsLt_iff (o : Option Ordering) : ordIsLt o = true ↔ o = some Ordering.lt := by
  rcases o with _ | c
  · simp [ordIsLt]
  · cases c <;> simp [ordIsLt]

theorem ordChain_lt_iff (c rest : Option Ordering) :
    ordChain c rest = some Ordering.lt ↔
      c = some Ordering.lt ∨ (c = some Ordering.eq ∧ rest = some Ordering.lt) := by
  rcases c with _ | c'
  · simp [ordChain]
  · cases c' <;> simp [ordChain]

theorem lt2D_lex (a b : Size2D) :
    Size2D.lt a b = (Size.lt a.x b.x || (Size.beq a.x b.x && Size.lt a.y b.y)) := by
  rw [Bool.eq_iff_iff]
  unfold Size2D.lt Size2D.pcmp Size.lt
  rw [ordIsLt_iff, ordChain_lt_iff]
  simp only [Bool.or_eq_true, Bool.and_eq_true, ordIsLt_iff]
  rw [← pcmp_eq_iff_beq]

theorem ltBox_lex (a b : SizeBox) :
    SizeBox.lt a b =
      (Size.lt a.left b.left ||
        (Size.beq a.left b.left &&
          (Size.lt a.top b.top ||
            (Size.beq a.top b.top &&
              (Size.lt a.right b.right ||
                (Size.beq a.right b.right && Size.lt a.bottom b.bottom)))))) := by
  rw [Bool.eq_iff_iff]
  unfold SizeBox.lt SizeBox.pcmp Size.lt
  rw [ordIsLt_iff, ordChain_lt_iff, ordChain_lt_iff, ordChain_lt_iff]
  simp only [Bool.or_eq_true, Bool.and_eq_true, ordIsLt_iff]
  rw [← pcmp_eq_iff_beq, ← pcmp_eq_iff_beq, ← pcmp_eq_iff_beq]

/-- C1 (counterexample): the claim asserts the `==` round trip for every
`f32` including NaN, but `from_points(NaN).to_points() == NaN` is false,
since NaN compares unequal to itself. -/
theorem c1_points_roundtrip_cex :
    ieeeEq ((Size.from_points F32.nan).to_points) F32.nan = false := by
  decide

/-- C1 (amended): `from_points(p).to_points()` returns exactly the datum `p`
for every `p`, and the `==` round trip holds for every non-NaN `p`
(infinities included); for NaN the returned datum is NaN but `==` is false. -/
theorem c1_points_roundtrip :
    (∀ p : F32, (Size.from_points p).to_points = p) ∧
    (∀ p : F32, p ≠ F32.nan → ieeeEq ((Size.from_points p).to_points) p = true) :=
  ⟨fun _ => rfl, fun p hp => ieeeEq_refl p hp⟩

/-- C1 (witness): the amended round trip at `p = +inf`. -/
theorem c1_points_roundtrip_witness :
    F32.inf false ≠ F32.nan ∧
      ieeeEq ((Size.from_points (F32.inf false)).to_points) (F32.inf false) = true :=
  ⟨by decide, c1_points_roundtrip.2 (F32.inf false) (by decide)⟩

/-- C2 (counterexample): the derived order is lexicographic, so the pair
`(1pt, 5pt)` — smaller `x`, larger `y` — IS ordered strictly below
`(2pt, 3pt)`, contradicting the claim that such a pair is not ordered below
the other. -/
theorem c2_order_cex :
    Size2D.lt (Size2D.new (Size.from_points (lit 1)) (Size.from_points (lit 5)))
        (Size2D.new (Size.from_points (lit 2)) (Size.from_points (lit 3))) = true ∧
      Size.lt (Size.from_points (lit 1)) (Size.from_points (lit 2)) = true ∧
      Size.gt (Size.from_points (lit 5)) (Size.from_points (lit 3)) = true := by
  refine ⟨by decide, by decide, by decide⟩

/-- C2 (amended): the derived `<` on `Size2D` is lexicographic — `x` first,
then `y` on equality — and on `SizeBox` it chains left, top, right, bottom in
field order. -/
theorem c2_order_lexicographic :
    (∀ a b : Size2D,
      Size2D.lt a b = (Size.lt a.x b.x || (Size.beq a.x b.x && Size.lt a.y b.y))) ∧
    (∀ a b : SizeBox,
      SizeBox.lt a b =
        (Size.lt a.left b.left ||
          (Size.beq a.left b.left &&
            (Size.lt a.top b.top ||
              (Size.beq a.top b.top &&
                (Size.lt a.right b.right ||
                  (Size.beq a.right b.right && Size.lt a.bottom b.bottom))))))) :=
  ⟨lt2D_lex, ltBox_lex⟩

/-- C3: the unit conversions multiply by the claimed literal constants
(whose binary32 values are computed exactly below), and the inch round trip
is approximate but not exact: `from_inches(1.0).to_inches()` is
`8388615/8388608`, within `2^-20` of `1` but different from it. -/
theorem c3_conversion_constants :
    (∀ p : F32, Size.from_inches p = ⟨mulF32 (lit 72) p⟩) ∧
    (∀ p : F32, Size.from_mm p = ⟨mulF32 (lit (mkRat 283465 100000)) p⟩) ∧
    (∀ p : F32, Size.from_cm p = ⟨mulF32 (lit (mkRat 283465 10000)) p⟩) ∧
    (∀ s : Size, s.to_inches = mulF32 s.points (lit (mkRat 138889 10000000))) ∧
    (∀ s : Size, s.to_mm = mulF32 s.points (lit (mkRat 352778 1000000))) ∧
    (∀ s : Size, s.to_cm = mulF32 s.points (lit (mkRat 352778 10000000))) ∧
    ((lit 72).toRatOpt = some 72) ∧
    ((lit (mkRat 138889 10000000)).toRatOpt = some (mkRat 14913093 1073741824)) ∧
    ((Size.from_inches (lit 1)).to_inches.toRatOpt = some (mkRat 8388615 8388608)) ∧
    (mkRat 8388615 8388608 ≠ 1) ∧
    (qAbs (qAdd (mkRat 8388615 8388608) (-1)) < q2 (-20)) := by
  refine ⟨fun _ => rfl, fun _ => rfl, fun _ => rfl, fun _ => rfl, fun _ => rfl, fun _ => rfl,
    by decide, by decide, by decide, by decide, by decide⟩

/-- C5: `1pt < 2pt` holds, and every comparison (`<`, `<=`, `>`, `>=`, `==`)
between a NaN-magnitude size and any size — itself included — is false. -/
theorem c5_ordering_nan :
    (Size.lt (Size.from_points (lit 1)) (Size.from_points (lit 2)) = true) ∧
    (∀ b : Size,
      Size.lt (Size.from_points F32.nan) b = false ∧
      Size.lt b (Size.from_points F32.nan) = false ∧
      Size.le (Size.from_points F32.nan) b = false ∧
      Size.le b (Size.from_points F32.nan) = false ∧
      Size.gt (Size.from_points F32.nan) b = false ∧
      Size.gt b (Size.from_points F32.nan) = false ∧
      Size.ge (Size.from_points F32.nan) b = false ∧
      Size.ge b (Size.from_points F32.nan) = false ∧
      Size.beq (Size.from_points F32.nan) b = false ∧
      Size.beq b (Size.from_points F32.nan) = false) := by
  refine ⟨by decide, fun b => ?_⟩
  rcases b with ⟨p⟩
  cases p <;>
    simp [Size.lt, Size.le, Size.gt, Size.ge, Size.beq, Size.pcmp, Size.from_points,
      pcmpF32, ordIsLt, ordIsLe, ordIsGt, ordIsGe, ieeeEq]

/-- C6: division is total in the model; dividing any size by the scalar
`0.0` or the integer `0` yields the IEEE result — NaN when the dividend is
NaN or zero, a signed infinity otherwise — and never a trap; `Size2D`
divides component-wise the same way. -/
theorem c6_div_by_zero_total :
    (∀ s : Size, s.divf f32zero =
      ⟨match s.points with
       | F32.nan => F32.nan
       | F32.inf b => F32.inf b
       | F32.finite b m _ => if m = 0 then F32.nan else F32.inf b⟩) ∧
    (∀ s : Size, s.divi 0 = s.divf f32zero) ∧
    (∀ s : Size, (s.divf f32zero).points = F32.nan ∨
      ∃ b, (s.divf f32zero).points = F32.inf b) ∧
    (∀ v : Size2D, v.divf f32zero = ⟨v.x.divf f32zero, v.y.divf f32zero⟩) ∧
    (∀ v : Size2D, v.divi 0 = v.divf f32zero) := by
  have hzero : i32ToF32 0 = f32zero := by decide
  refine ⟨fun s => ?_, fun s => ?_, fun s => ?_, fun v => rfl, fun v => ?_⟩
  · rcases s with ⟨p⟩
    cases p <;> simp [Size.divf, divF32, f32zero, Bool.xor_false]
  · simp only [Size.divi, Size.divf, hzero]
  · rcases s with ⟨p⟩
    cases p with
    | nan => exact Or.inl rfl
    | inf b => exact Or.inr ⟨b, by simp [Size.divf, divF32, f32zero, Bool.xor_false]⟩
    | finite b m e =>
      by_cases hm : m = 0
      · exact Or.inl (by simp [Size.divf, divF32, f32zero, hm])
      · exact Or.inr ⟨b, by simp [Size.divf, divF32, f32zero, hm, Bool.xor_false]⟩
  · simp only [Size2D.divi, Size2D.divf, hzero]

/-- C8 (counterexample): `-(-a) == a` fails at `a = NaN` because NaN
compares unequal to itself. -/
theorem c8_neg_involution_cex :
    Size.beq ((Size.from_points F32.nan).neg.neg) (Size.from_points F32.nan) = false := by
  decide

/-- C8 (amended): double negation returns exactly the original datum for
every size (non-finite ones included), and the `==` form holds whenever the
magnitude is not NaN. -/
theorem c8_neg_involution :
    (∀ a : Size, a.neg.neg = a) ∧
    (∀ a : Size, a.points ≠ F32.nan → Size.beq (a.neg.neg) a = true) := by
  constructor
  · intro a
    rcases a with ⟨p⟩
    show Size.mk (negF32 (negF32 p)) = ⟨p⟩
    rw [negF32_negF32]
  · intro a h
    rcases a with ⟨p⟩
    show ieeeEq (negF32 (negF32 p)) p = true
    rw [negF32_negF32]
    exact ieeeEq_refl p h

/-- C8 (witness): the amended involution at `a = 1pt`. -/
theorem c8_neg_involution_witness :
    (Size.from_points (lit 1)).points ≠ F32.nan ∧
      Size.beq ((Size.from_points (lit 1)).neg.neg) (Size.from_points (lit 1)) = true :=
  ⟨by decide, c8_neg_involution.2 (Size.from_points (lit 1)) (by decide)⟩

/-- C9: `Size` renders as the magnitude followed by "pt" (`12pt`), `Size2D`
as `[x, y]` (`[1pt, 2pt]`), a zero `SizeBox` as
`[left: 0pt, top: 0pt, right: 0pt, bottom: 0pt]`, and every Debug rendering
equals the Display rendering. -/
theorem c9_display :
    (Size.display (Size.from_points (lit 12)) = "12pt") ∧
    (Size2D.display (Size2D.new (Size.from_points (lit 1)) (Size.from_points (lit 2))) =
      "[1pt, 2pt]") ∧
    (SizeBox.display SizeBox.zero = "[left: 0pt, top: 0pt, right: 0pt, bottom: 0pt]") ∧
    (∀ s : Size, s.debugStr = s.display) ∧
    (∀ v : Size2D, v.debugStr = v.display) ∧
    (∀ b : SizeBox, b.debugStr = b.display) :=
  ⟨by decide, by decide, by decide, fun _ => rfl, fun _ => rfl, fun _ => rfl⟩

theorem sval_not (s : Bool) (m : ℕ) (e : ℤ) : sval (!s) m e = -(sval s m e) := by
  cases s <;> simp [sval_false, sval_true]

theorem roundF32_natCast_exact (m : ℕ) (hm : m ≤ 2 ^ 24) :
    (roundF32 ((m : ℚ))).toRatOpt = some ((m : ℚ)) := by
  rcases Nat.eq_zero_or_pos m with h0 | hpos
  · subst h0
    decide
  · rcases eq_or_lt_of_le hm with heq | hlt
    · rw [heq]
      decide
    · have hq : ((m : ℚ)) = sval false m 0 := by
        rw [sval_false, show q2 0 = 1 from by decide, mul_one]
      have hub : (m : ℚ) * q2 0 < q2 128 := by
        rw [show q2 0 = 1 from by decide, mul_one]
        calc (m : ℚ) < ((2 ^ 24 : ℕ) : ℚ) := by exact_mod_cast hlt
          _ < q2 128 := by decide
      obtain ⟨m', e', hr, hveq, _, _, _⟩ := roundF32_sval false m 0 hpos hlt (by norm_num) hub
      rw [hq, hr]
      show some (sval false m' e') = some (sval false m 0)
      rw [hveq]

theorem i32ToF32_exact (k : ℤ) (hk : k.natAbs ≤ 2 ^ 24) :
    (i32ToF32 k).toRatOpt = some ((k : ℚ)) := by
  unfold i32ToF32
  rcases le_or_lt 0 k with h | h
  · have hcast : ((k : ℚ)) = ((k.natAbs : ℚ)) := by
      rw [Int.cast_natAbs, abs_of_nonneg h]
    rw [hcast]
    exact roundF32_natCast_exact _ hk
  · have hm0 : 0 < k.natAbs := by omega
    have hcast : ((k : ℚ)) = -((k.natAbs : ℚ)) := by
      rw [Int.cast_natAbs, abs_of_neg h]
      push_cast
      ring
    have hq0 : ((k.natAbs : ℚ)) ≠ 0 := by
      have : (0 : ℚ) < ((k.natAbs : ℚ)) := by exact_mod_cast hm0
      exact ne_of_gt this
    rw [hcast, roundF32_neg _ hq0]
    have hpos := roundF32_natCast_exact k.natAbs hk
    rcases hres : roundF32 ((k.natAbs : ℚ)) with _ | b | ⟨s, m, e⟩
    · rw [hres] at hpos
      simp [F32.toRatOpt] at hpos
    · rw [hres] at hpos
      simp [F32.toRatOpt] at hpos
    · rw [hres] at hpos
      have hsv : sval s m e = ((k.natAbs : ℚ)) := by
        simpa [F32.toRatOpt] using hpos
      show (negF32 (F32.finite s m e)).toRatOpt = _
      simp [negF32, F32.toRatOpt, sval_not, hsv]

/-- C4 (counterexample): summing `[NaN, 0, 0]` and adding the elements
iteratively both give NaN, but the `==` comparison of the two results is
false, so the claimed equality fails on NaN inputs. -/
theorem c4_sum_cex :
    Size.beq (Size.sum [Size.from_points F32.nan, Size.zero, Size.zero])
      (((Size.from_points F32.nan).add Size.zero).add Size.zero) = false := by
  decide

/-- C4 (amended): summing folds left-to-right from `zero()` with addition;
the empty sum is `zero()`; and the sum of `[s1, s2, s3]` is `==`-equal to
the iterated `s1 + s2 + s3` whenever that iterated sum is not NaN (when it
is NaN, both computations yield NaN, which `==` reports as unequal). -/
theorem c4_sum_fold :
    (Size.sum [] = Size.zero) ∧
    (∀ l : List Size, Size.sum l = l.foldl Size.add Size.zero) ∧
    (∀ s1 s2 s3 : Size, s1.points.isValid = true →
      (((s1.add s2).add s3).points.isNan = false) →
      Size.beq (Size.sum [s1, s2, s3]) ((s1.add s2).add s3) = true) := by
  refine ⟨rfl, fun _ => rfl, fun s1 s2 s3 hv hnan => ?_⟩
  have h1 : veq (addF32 f32zero s1.points) s1.points = true := veq_zero_add _ hv
  have h2 := veq_addF32_left _ _ s2.points h1
  have h3 := veq_addF32_left _ _ s3.points h2
  exact veq_to_ieeeEq h3 hnan

/-- C4 (witness): the amended fold law at `[1pt, 2pt, 3pt]`. -/
theorem c4_sum_fold_witness :
    (Size.from_points (lit 1)).points.isValid = true ∧
    ((((Size.from_points (lit 1)).add (Size.from_points (lit 2))).add
        (Size.from_points (lit 3))).points.isNan = false) ∧
    Size.beq
      (Size.sum [Size.from_points (lit 1), Size.from_points (lit 2), Size.from_points (lit 3)])
      (((Size.from_points (lit 1)).add (Size.from_points (lit 2))).add
        (Size.from_points (lit 3))) = true :=
  ⟨by decide, by decide,
    c4_sum_fold.2.2 (Size.from_points (lit 1)) (Size.from_points (lit 2))
      (Size.from_points (lit 3)) (by decide) (by decide)⟩

/-- C7 (counterexample): with `s = NaN` and `k = 2.0` both products are NaN
and `k * s == s * k` is false, refuting the unrestricted `==` claim. -/
theorem c7_mul_comm_cex :
    Size.beq (Size.mulfRev (lit 2) (Size.from_points F32.nan))
      ((Size.from_points F32.nan).mulf (lit 2)) = false := by
  decide

/-- C7 (amended): `k * s` and `s * k` produce the identical `f32` datum for
float and integer scalars alike (scalar multiplication is commutative as a
function), and the `==` comparison holds whenever the product is not NaN;
in particular `2.0 * 3pt == 3pt * 2.0`. -/
theorem c7_mul_comm :
    (∀ (k : F32) (s : Size), Size.mulfRev k s = s.mulf k) ∧
    (∀ (k : ℤ) (s : Size), Size.muliRev k s = s.muli k) ∧
    (∀ (k : F32) (s : Size), (s.mulf k).points.isNan = false →
      Size.beq (Size.mulfRev k s) (s.mulf k) = true) ∧
    (Size.beq (Size.mulfRev (lit 2) (Size.from_points (lit 3)))
      ((Size.from_points (lit 3)).mulf (lit 2)) = true) := by
  have hflip : ∀ (k : F32) (s : Size), Size.mulfRev k s = s.mulf k := by
    intro k s
    show Size.mk (mulF32 k s.points) = ⟨mulF32 s.points k⟩
    rw [mulF32_comm]
  refine ⟨hflip, fun k s => ?_, fun k s h => ?_, by decide⟩
  · show Size.mk (mulF32 (i32ToF32 k) s.points) = ⟨mulF32 s.points (i32ToF32 k)⟩
    rw [mulF32_comm]
  · rw [hflip]
    have hne : (s.mulf k).points ≠ F32.nan := by
      intro hn
      rw [hn] at h
      cases h
    exact ieeeEq_refl _ hne

/-- C7 (witness): the amended `==` commutation at `k = 2.0`, `s = 3pt`. -/
theorem c7_mul_comm_witness :
    ((Size.from_points (lit 3)).mulf (lit 2)).points.isNan = false ∧
    Size.beq (Size.mulfRev (lit 2) (Size.from_points (lit 3)))
      ((Size.from_points (lit 3)).mulf (lit 2)) = true :=
  ⟨by decide, c7_mul_comm.2.2.1 (lit 2) (Size.from_points (lit 3)) (by decide)⟩

/-- C10 (counterexample): `2^25 = 33554432` exceeds `2^24` in magnitude yet
converts to `f32` exactly, so "for integers whose magnitude exceeds `2^24`
this conversion is inexact" fails as a universal statement. -/
theorem c10_i32_cast_cex :
    (i32ToF32 33554432).toRatOpt = some ((33554432 : ℚ)) ∧ (2 ^ 24 : ℤ) < 33554432 := by
  refine ⟨by decide, by decide⟩

/-- C10 (amended): every integer-scalar operation first converts the scalar
with the round-to-nearest cast `k as f32` and then performs the float
operation (on `Size` and `Size2D`, multiplication both ways and division);
the cast is exact for every `|k| ≤ 2^24` and not always exact beyond
(`16777217` converts to `16777216`), though some larger integers still
convert exactly. -/
theorem c10_i32_cast :
    (∀ (k : ℤ) (s : Size), s.muli k = s.mulf (i32ToF32 k)) ∧
    (∀ (k : ℤ) (s : Size), s.divi k = s.divf (i32ToF32 k)) ∧
    (∀ (k : ℤ) (s : Size), Size.muliRev k s = Size.mulfRev (i32ToF32 k) s) ∧
    (∀ (k : ℤ) (v : Size2D), v.muli k = v.mulf (i32ToF32 k)) ∧
    (∀ (k : ℤ) (v : Size2D), v.divi k = v.divf (i32ToF32 k)) ∧
    (∀ (k : ℤ) (v : Size2D), Size2D.muliRev k v = Size2D.mulfRev (i32ToF32 k) v) ∧
    (∀ k : ℤ, k.natAbs ≤ 2 ^ 24 → (i32ToF32 k).toRatOpt = some ((k : ℚ))) ∧
    ((i32ToF32 16777217).toRatOpt = some ((16777216 : ℚ))) :=
  ⟨fun _ _ => rfl, fun _ _ => rfl, fun _ _ => rfl, fun _ _ => rfl, fun _ _ => rfl,
    fun _ _ => rfl, i32ToF32_exact, by decide⟩

/-- C10 (witness): the exactness clause at `k = 3`. -/
theorem c10_i32_cast_witness :
    (3 : ℤ).natAbs ≤ 2 ^ 24 ∧ (i32ToF32 3).toRatOpt = some ((3 : ℚ)) :=
  ⟨by decide, c10_i32_cast.2.2.2.2.2.2.1 3 (by decide)⟩

end SizeSpec
